import Mathlib

/-!
Verification of the codewise fault-localization pipeline.

Shallow embedding of the core components of the repository:
confidence calibration (`ranker/confidence_calibrator.py`), candidate
merging (`fault_localizer.py`), call-graph traversal (`graph/call_graph.py`),
hybrid retrieval (`retrieval/hybrid_retriever.py`), the Python stack-trace
extractor (`extractors/python_extractor.py`) and the LLM re-ranking step
(`ranker/llm_ranker.py`).

Real-valued scores are modelled as rationals (`ℚ`); Python floats at the
precision exercised here behave identically.  Python `set`s are modelled as
`Finset`, insertion-ordered `dict`s as association lists, and Python's
stable `list.sort` as `List.insertionSort` (any stable sort is a faithful
model).  External collaborators (the BM25Okapi library scorer, the sentence
encoder / cosine similarity, the Bedrock model invocation and JSON parsing)
are abstracted as explicit function parameters, as the spec treats them as
black boxes.
-/

namespace Codewise

/-- The `CodeEntity` dataclass from `indexer/entities.py`, restricted to the
fields the verified components read (`id`, `name`, `file_path`, line range,
and the optional `embedding`; the remaining string fields play no role in
the claims below and are omitted).  `embedding = some l` models a stored
list, `none` models Python `None`. -/
structure CodeEntity where
  id : String
  name : String
  file_path : String
  start_line : Nat
  end_line : Nat
  embedding : Option (List ℚ) := none
deriving DecidableEq, Repr

/-- The `CalibrationFactors` dataclass from `ranker/confidence_calibrator.py`
(defaults as in the source). -/
structure CalibrationFactors where
  stack_trace_match : ℚ := 0
  call_graph_distance : ℤ := 0
  semantic_score : ℚ := 0
  bm25_score : ℚ := 0
  file_path_match : Bool := false
  method_name_match : Bool := false
deriving DecidableEq, Repr

namespace ConfidenceCalibrator

/-- `WEIGHTS["stack_trace_match"]` from `ConfidenceCalibrator.WEIGHTS`. -/
def WEIGHTS_stack_trace_match : ℚ := 0.35

/-- `WEIGHTS["call_graph_proximity"]` from `ConfidenceCalibrator.WEIGHTS`. -/
def WEIGHTS_call_graph_proximity : ℚ := 0.20

/-- `WEIGHTS["semantic_similarity"]` from `ConfidenceCalibrator.WEIGHTS`. -/
def WEIGHTS_semantic_similarity : ℚ := 0.25

/-- `WEIGHTS["keyword_match"]` from `ConfidenceCalibrator.WEIGHTS`. -/
def WEIGHTS_keyword_match : ℚ := 0.15

/-- `WEIGHTS["context_match"]` from `ConfidenceCalibrator.WEIGHTS`. -/
def WEIGHTS_context_match : ℚ := 0.05

/-- `ConfidenceCalibrator.calibrate` from `ranker/confidence_calibrator.py`
(lines 30-61), translated statement by statement. -/
def calibrate (factors : CalibrationFactors) : ℚ :=
  let score : ℚ := 0
  -- stack trace direct match
  let score := if factors.stack_trace_match > 0 then
      score + WEIGHTS_stack_trace_match * factors.stack_trace_match
    else score
  -- call graph proximity
  let score := if factors.call_graph_distance ≥ 0 then
      score + WEIGHTS_call_graph_proximity *
        max 0 (1 - (factors.call_graph_distance : ℚ) * 0.2)
    else score
  -- semantic similarity
  let score := score + WEIGHTS_semantic_similarity * factors.semantic_score
  -- BM25/keyword match
  let score := score + WEIGHTS_keyword_match * min 1 factors.bm25_score
  -- context matches
  let context_score : ℚ :=
    (if factors.file_path_match then 0.5 else 0) +
    (if factors.method_name_match then 0.5 else 0)
  let score := score + WEIGHTS_context_match * context_score
  min 1 (max 0 score)

/-- `ConfidenceCalibrator.get_confidence_label` from
`ranker/confidence_calibrator.py` (lines 63-72). -/
def get_confidence_label (score : ℚ) : String :=
  if score ≥ 0.8 then "high"
  else if score ≥ 0.5 then "medium"
  else if score ≥ 0.3 then "low"
  else "very_low"

end ConfidenceCalibrator

/-- The call graph from `graph/call_graph.py`: a networkx `DiGraph` is
modelled by its node list (insertion order preserved, as networkx iterates
nodes in insertion order) and its directed edge list. -/
structure CallGraph where
  nodes : List String
  edges : List (String × String)
deriving DecidableEq, Repr

namespace CallGraph

/-- `self.graph.predecessors(node)`: sources of the edges into `node`. -/
def predecessors (g : CallGraph) (node : String) : Finset String :=
  ((g.edges.filter (fun e => decide (e.2 = node))).map Prod.fst).toFinset

/-- The body of one iteration of the depth loop in `get_callers`
(`graph/call_graph.py` lines 39-46) on the state `(callers, current)`:
every predecessor of a node in `current` that is not already in `callers`
is added to `callers` and to the next frontier.  The resulting sets do not
depend on Python's set iteration order, so the loop body is one set-level
operation per level. -/
def callersStep (g : CallGraph) :
    Finset String × Finset String → Finset String × Finset String :=
  fun st =>
    let next_level := (st.2.biUnion fun node => g.predecessors node) \ st.1
    (st.1 ∪ next_level, next_level)

/-- `CallGraph.get_callers` (`graph/call_graph.py` lines 27-48).  The
Python function returns `list(callers)` in set-iteration order; the result
is modelled as the `Finset` of collected callers.  When `method_name` is
not a node, the source falls back to the first node (in insertion order)
whose name ends with `method_name`, or returns empty when none does. -/
def get_callers (g : CallGraph) (method_name : String) (depth : Nat := 2) :
    Finset String :=
  let resolved : Option String :=
    if method_name ∈ g.nodes then some method_name
    else
      match g.nodes.filter (fun n => n.endsWith method_name) with
      | [] => none
      | m :: _ => some m
  match resolved with
  | none => ∅
  | some m => ((callersStep g)^[depth] (∅, {m})).1

/-- `pathLen g n a b` holds when there is a chain of exactly `n` forward
call edges in `g` leading from `a` to `b`. -/
def pathLen (g : CallGraph) : Nat → String → String → Prop
  | 0, a, b => a = b
  | n + 1, a, b => ∃ c, (a, c) ∈ g.edges ∧ pathLen g n c b

end CallGraph

/-- The chain call graph A→B→C→D→E used by the depth-bound property. -/
def chainGraph : CallGraph :=
  ⟨["A", "B", "C", "D", "E"], [("A", "B"), ("B", "C"), ("C", "D"), ("D", "E")]⟩

/-- A two-node call cycle A→B→A. -/
def cycleGraph : CallGraph :=
  ⟨["A", "B"], [("A", "B"), ("B", "A")]⟩

namespace FaultLocalizer

/-- Assignment `scores[k] = v` on a Python dict modelled as an
insertion-ordered association list: an existing key keeps its position and
gets the new value, a new key is appended at the end. -/
def setScore : List (String × CodeEntity × ℚ) → String → CodeEntity × ℚ →
    List (String × CodeEntity × ℚ)
  | [], k, v => [(k, v)]
  | (k', v') :: rest, k, v =>
    if k' = k then (k, v) :: rest else (k', v') :: setScore rest k v

/-- The loop body of `FaultLocalizer._merge_candidates`
(`fault_localizer.py` lines 114-116): `scores[entity.id] = (entity, score)`
when `entity.id` is absent or its stored score is strictly smaller. -/
def mergeInsert (scores : List (String × CodeEntity × ℚ))
    (c : CodeEntity × ℚ) : List (String × CodeEntity × ℚ) :=
  match scores.lookup c.1.id with
  | none => setScore scores c.1.id c
  | some prev => if prev.2 < c.2 then setScore scores c.1.id c else scores

/-- The descending-score order used by
`merged.sort(key=lambda x: x[1], reverse=True)`. -/
def scoreGe (a b : CodeEntity × ℚ) : Prop := b.2 ≤ a.2

instance : DecidableRel scoreGe :=
  fun a b => (inferInstance : Decidable (b.2 ≤ a.2))

instance : IsTotal (CodeEntity × ℚ) scoreGe :=
  ⟨fun a b => le_total b.2 a.2⟩

instance : IsTrans (CodeEntity × ℚ) scoreGe :=
  ⟨fun _ _ _ h1 h2 => le_trans h2 h1⟩

/-- `FaultLocalizer._merge_candidates` (`fault_localizer.py` lines
105-120): fold the concatenation of the three candidate lists through the
dict update, take the dict values in order, and sort them descending by
score (Python's sort is stable; any sort producing a descending
permutation models it, since the spec leaves tie order arbitrary). -/
def _merge_candidates (direct expanded searched : List (CodeEntity × ℚ)) :
    List (CodeEntity × ℚ) :=
  let scores := (direct ++ expanded ++ searched).foldl mergeInsert []
  let merged := scores.map Prod.snd
  List.insertionSort scoreGe merged

/-- All scores attached to entity id `i` in the candidate list `l`. -/
def scoresOf (l : List (CodeEntity × ℚ)) (i : String) : List ℚ :=
  (l.filter fun c => decide (c.1.id = i)).map Prod.snd

/-- `s` is the maximum of the list `l` (and in particular occurs in it). -/
def isMaxOf (s : ℚ) (l : List ℚ) : Prop := s ∈ l ∧ ∀ q ∈ l, q ≤ s

/-- The order-insensitive view of a candidate list as a set of
(entity id, score) pairs, used by the idempotent-merge property. -/
def pairSet (l : List (CodeEntity × ℚ)) : Finset (String × ℚ) :=
  (l.map fun c => (c.1.id, c.2)).toFinset

/-- Loop invariant of the dict fold in `_merge_candidates`: keys are
distinct, and the dict maps each id present in the processed prefix to an
entity carrying that id together with the maximum score seen for it. -/
def mergeInv (processed : List (CodeEntity × ℚ))
    (acc : List (String × CodeEntity × ℚ)) : Prop :=
  (acc.map Prod.fst).Nodup ∧
  ∀ k : String,
    (acc.lookup k = none → scoresOf processed k = []) ∧
    (∀ v, acc.lookup k = some v → v.1.id = k ∧ isMaxOf v.2 (scoresOf processed k))

end FaultLocalizer

/-- A concrete entity with id "E" for the max-wins merge example. -/
def entE : CodeEntity :=
  { id := "E", name := "e", file_path := "e.py", start_line := 1, end_line := 5 }

/-- Python `ZeroDivisionError`, the exception raised by a division whose
divisor is zero. -/
inductive PyError where
  | zeroDivisionError
deriving DecidableEq, Repr

namespace HybridRetriever

/-- Python truthiness of the optional embedding list: `if entity.embedding:`
is false both for `None` and for an empty list. -/
def truthyEmbedding : Option (List ℚ) → Bool
  | none => false
  | some l => !l.isEmpty

/-- State of the external rank_bm25 `BM25Okapi` index built by
`HybridRetriever.__init__`, reduced to the fields its initialization
computes eagerly and that decide the empty-corpus claim. -/
structure BM25Okapi where
  corpus_size : Nat
  avgdl : ℚ
deriving DecidableEq, Repr

/-- Constructor of the external rank_bm25 `BM25Okapi` class, called as
`BM25Okapi(tokenized)` by `HybridRetriever.__init__`: its `_initialize`
counts the documents into `self.corpus_size`, sums their token counts
into `num_doc`, and ends with `self.avgdl = num_doc / self.corpus_size` —
a Python `ZeroDivisionError` when the corpus is empty, so construction
over an empty corpus raises instead of returning an index. -/
def BM25Okapi._initialize (corpus : List (List String)) :
    Except PyError BM25Okapi :=
  let corpus_size := corpus.length
  let num_doc := (corpus.map List.length).sum
  if corpus_size = 0 then Except.error PyError.zeroDivisionError
  else Except.ok ⟨corpus_size, (num_doc : ℚ) / (corpus_size : ℚ)⟩

/-- Retriever state built by `HybridRetriever.__init__`
(`retrieval/hybrid_retriever.py` lines 8-17): the entity list and the
BM25 index (the `embeddings` matrix and the encoder handle are not read
by any claim here and are omitted). -/
structure State where
  entities : List CodeEntity
  bm25 : BM25Okapi
deriving DecidableEq, Repr

/-- Embedding of `HybridRetriever.__init__` (`retrieval/hybrid_retriever.py`
lines 8-17).  `tokenize` abstracts `e.to_search_text().lower().split()`
(pure string manipulation whose content no claim reads); the constructor
builds the BM25 index over one token list per entity and propagates the
`ZeroDivisionError` that `BM25Okapi` raises on an empty corpus. -/
def __init__ (tokenize : CodeEntity → List String)
    (entities : List CodeEntity) : Except PyError State := do
  let tokenized := entities.map tokenize
  let bm25 ← BM25Okapi._initialize tokenized
  pure ⟨entities, bm25⟩

/-- `all_scores.min()` on a numpy array (only applied to nonempty arrays in
the source; the `[]` case is an unused total-function default). -/
def listMin : List ℚ → ℚ
  | [] => 0
  | x :: xs => xs.foldl min x

/-- `all_scores.max()`, as for `listMin`. -/
def listMax : List ℚ → ℚ
  | [] => 0
  | x :: xs => xs.foldl max x

/-- `HybridRetriever._normalize` (`retrieval/hybrid_retriever.py` lines
51-55): min-max scaling of `score` over `all_scores`, 0.5 when all scores
coincide. -/
def _normalize (score : ℚ) (all_scores : List ℚ) : ℚ :=
  let min_s := listMin all_scores
  let max_s := listMax all_scores
  if max_s = min_s then 0.5
  else (score - min_s) / (max_s - min_s)

/-- `np.argsort` (ascending) on a score list: the index list stably sorted
by score.  numpy leaves the relative order of equal scores unspecified;
the concrete inputs used below have pairwise distinct scores, where every
correct sort agrees. -/
def argsortAsc (scores : List ℚ) : List Nat :=
  List.insertionSort (fun i j => scores.getD i 0 ≤ scores.getD j 0)
    (List.range scores.length)

/-- `HybridRetriever.search` (`retrieval/hybrid_retriever.py` lines 19-40).
`bm25_scores` abstracts the external `self.bm25.get_scores(tokenized_query)`
call (rank_bm25 returns one score per indexed entity, so its length equals
the number of entities); `dense idx` abstracts
`self._cosine_similarity(query_embedding, entity.embedding)` for the entity
at index `idx` (the encoder is an external black box and cosine similarity
over floats is irrational in general).
`np.argsort(bm25_scores)[-bm25_candidates:][::-1]` is the ascending argsort
with the last `bm25_candidates` entries kept and reversed.  An index with
no entity (impossible when `bm25_scores` has one entry per entity) is
skipped. -/
def search (entities : List CodeEntity) (bm25_scores : List ℚ)
    (dense : Nat → ℚ) (top_k : Nat) (bm25_candidates : Nat) :
    List (CodeEntity × ℚ) :=
  let top_bm25_indices :=
    ((argsortAsc bm25_scores).drop
      (bm25_scores.length - bm25_candidates)).reverse
  let scored := top_bm25_indices.filterMap fun idx =>
    match entities.get? idx with
    | none => none
    | some entity =>
      if truthyEmbedding entity.embedding then
        some (entity,
          0.4 * _normalize (bm25_scores.getD idx 0) bm25_scores +
            0.6 * dense idx)
      else none
  (List.insertionSort FaultLocalizer.scoreGe scored).take top_k

/-- Hybrid search as claim C2 words it: identical to `search` except that
the BM25 score of each pooled candidate is min-max normalized over the
scores of the candidate pool (the top `bm25_candidates` entities of the
lexical pre-filter) instead of over the full score array.  Stated from the
claim, for comparison against the source-derived `search`. -/
def searchSpecPoolNorm (entities : List CodeEntity) (bm25_scores : List ℚ)
    (dense : Nat → ℚ) (top_k : Nat) (bm25_candidates : Nat) :
    List (CodeEntity × ℚ) :=
  let top_bm25_indices :=
    ((argsortAsc bm25_scores).drop
      (bm25_scores.length - bm25_candidates)).reverse
  let pool_scores := top_bm25_indices.map fun i => bm25_scores.getD i 0
  let scored := top_bm25_indices.filterMap fun idx =>
    match entities.get? idx with
    | none => none
    | some entity =>
      if truthyEmbedding entity.embedding then
        some (entity,
          0.4 * _normalize (bm25_scores.getD idx 0) pool_scores +
            0.6 * dense idx)
      else none
  (List.insertionSort FaultLocalizer.scoreGe scored).take top_k

end HybridRetriever

/-- Three concrete entities with stored embeddings for the normalization
counterexample. -/
def ent0 : CodeEntity :=
  { id := "e0", name := "f0", file_path := "a.py", start_line := 1,
    end_line := 2, embedding := some [1] }

/-- Second concrete entity. -/
def ent1 : CodeEntity :=
  { id := "e1", name := "f1", file_path := "a.py", start_line := 3,
    end_line := 4, embedding := some [1] }

/-- Third concrete entity. -/
def ent2 : CodeEntity :=
  { id := "e2", name := "f2", file_path := "a.py", start_line := 5,
    end_line := 6, embedding := some [1] }

/-- The three-entity corpus of the normalization counterexample. -/
def retrEntities : List CodeEntity := [ent0, ent1, ent2]

namespace PythonStackExtractor

/-- Python regex `\w` for the ASCII error texts considered here:
alphanumeric or underscore. -/
def wordChar (c : Char) : Bool := c.isAlphanum || c = '_'

/-- Splitting a text (modelled as its character list) into lines at newline
characters, as Python's `re.MULTILINE` `^`/`$` anchors delimit them. -/
def splitLines : List Char → List (List Char)
  | [] => [[]]
  | c :: cs =>
    if c = '\n' then [] :: splitLines cs
    else
      match splitLines cs with
      | [] => [[c]]
      | l :: ls => (c :: l) :: ls

/-- Joining lines back with newline separators (the inverse of
`splitLines` on newline-free lines). -/
def joinLines : List (List Char) → List Char
  | [] => []
  | [l] => l
  | l :: ls => l ++ '\n' :: joinLines ls

/-- One line matched against
`EXCEPTION_PATTERN = r'^(\w+(?:Error|Exception|Warning)?): (.+)$'`
(`extractors/python_extractor.py` lines 11-13).  Since `:` is not a word
character, the first capture group is forced to the maximal leading run of
word characters (the optional Error/Exception/Warning suffix is subsumed
by the greedy `\w+`, matching the "or bare" alternative), which must be
followed by a literal `": "`; the second group `(.+)$` is the remainder of
the line, which must be nonempty. -/
def exceptionLineMatch (line : List Char) : Option (List Char × List Char) :=
  let ident := line.takeWhile wordChar
  let rest := line.dropWhile wordChar
  if ident.isEmpty then none
  else
    match rest with
    | ':' :: ' ' :: msg => if msg.isEmpty then none else some (ident, msg)
    | _ => none

/-- The exception-line scan of `PythonStackExtractor.extract`
(`extractors/python_extractor.py` lines 30-33): `EXCEPTION_PATTERN.search`
yields the first match of the multiline pattern, i.e. the first matching
line; with no match the pair stays `("Unknown", "")`. -/
def extractExceptionInfo (text : List Char) : List Char × List Char :=
  match (splitLines text).findSome? exceptionLineMatch with
  | some (t, m) => (t, m)
  | none => ("Unknown".data, "".data)

/-- The exception assignment as claim C3 words it: the last matching line
of the text wins.  Stated from the spec's words for comparison with the
source-derived `extractExceptionInfo`. -/
def extractExceptionInfoSpecLast (text : List Char) : List Char × List Char :=
  match (splitLines text).reverse.findSome? exceptionLineMatch with
  | some (t, m) => (t, m)
  | none => ("Unknown".data, "".data)

end PythonStackExtractor

/-- A traceback text containing two lines matching the exception-line
grammar, for the first-versus-last-match counterexample. -/
def ctrexTrace : List Char :=
  ("Traceback (most recent call last):\n" ++
   "ValueError: first\n" ++
   "TypeError: second").data

namespace LLMRanker

/-- One entry of the parsed JSON rankings array of `_parse_response`, with
the `r.get("index", 0)`, `r.get("confidence", 0)`, `r.get("reason", "")`
defaults already applied. -/
structure RankItem where
  index : Nat
  confidence : ℚ
  reason : String
deriving DecidableEq, Repr

/-- One element of the list returned by `rank_and_explain`
(`ranker/llm_ranker.py` lines 74-79 and 83). -/
structure RankResult where
  entity : CodeEntity
  retrieval_score : ℚ
  confidence : ℚ
  reason : String
deriving DecidableEq, Repr

/-- The fallback branch of `_parse_response` (`ranker/llm_ranker.py`
line 83): the top candidates by retrieval score, confidence 0, empty
reason. -/
def fallbackResults (candidates : List (CodeEntity × ℚ)) (top_k : Nat) :
    List RankResult :=
  (candidates.take top_k).map fun es =>
    { entity := es.1, retrieval_score := es.2, confidence := 0, reason := "" }

/-- The ranking loop of `_parse_response` (`ranker/llm_ranker.py` lines
69-80): each of the first `top_k` ranking entries whose index is within
the candidate list contributes one result row. -/
def buildResults (rankings : List RankItem)
    (candidates : List (CodeEntity × ℚ)) (top_k : Nat) : List RankResult :=
  (rankings.take top_k).filterMap fun r =>
    match candidates.get? r.index with
    | none => none
    | some es =>
      some { entity := es.1, retrieval_score := es.2,
             confidence := r.confidence, reason := r.reason }

/-- `LLMRanker._parse_response` (`ranker/llm_ranker.py` lines 62-83).
`tryParseRankings` abstracts the bracket slicing plus `json.loads` of
`content`; `none` models the `json.JSONDecodeError`/`KeyError` caught by
the `except` clause, which is the only failure that triggers the
retrieval-score fallback. -/
def _parse_response (tryParseRankings : String → Option (List RankItem))
    (content : String) (candidates : List (CodeEntity × ℚ)) (top_k : Nat) :
    List RankResult :=
  match tryParseRankings content with
  | some rankings => buildResults rankings candidates top_k
  | none => fallbackResults candidates top_k

/-- `LLMRanker.rank_and_explain` (`ranker/llm_ranker.py` lines 12-32).
`invokeModel` abstracts `self.client.invoke_model(...)` together with
reading and decoding the response body into the text `content`;
`Except.error e` models an exception (network error, timeout, malformed
body) raised there, which the source does not catch anywhere, so it
propagates to the caller.  On success `_parse_response` runs on the
returned text. -/
def rank_and_explain {ε : Type} (invokeModel : Except ε String)
    (tryParseRankings : String → Option (List RankItem))
    (candidates : List (CodeEntity × ℚ)) (top_k : Nat) :
    Except ε (List RankResult) := do
  let content ← invokeModel
  pure (_parse_response tryParseRankings content candidates top_k)

end LLMRanker

/-- Step 6 of `FaultLocalizer.localize` (`fault_localizer.py` lines
56-60): delegate to the re-ranker when `use_llm` and a ranker is
configured (`Sum.inl` rows), otherwise return the merged candidates
truncated to `top_k` with their raw scores and empty reasons (`Sum.inr`
rows; the constant empty reason is left implicit in the pair).  `localize`
wraps the ranker call in no exception handler, so the `Except` error of a
failed invocation escapes `localize` itself. -/
def localizeRankStep {ε : Type} (use_llm has_ranker : Bool)
    (invokeModel : Except ε String)
    (tryParseRankings : String → Option (List LLMRanker.RankItem))
    (all_candidates : List (CodeEntity × ℚ)) (top_k : Nat) :
    Except ε (List LLMRanker.RankResult ⊕ List (CodeEntity × ℚ)) :=
  if use_llm && has_ranker then
    (LLMRanker.rank_and_explain invokeModel tryParseRankings
      all_candidates top_k).map Sum.inl
  else
    Except.ok (Sum.inr (all_candidates.take top_k))

end Codewise

namespace Codewise

open ConfidenceCalibrator CallGraph FaultLocalizer

/-- Claim C6: the confidence label function maps 0.8 to "high", 0.79999 to
"medium", 0.5 to "medium", 0.3 to "low" and 0.29999 to "very_low", and for
every score the thresholds 0.8, 0.5, 0.3 are applied in descending order
(a score at or above a threshold never falls through to a lower label). -/
theorem C6_confidence_label_boundaries :
    get_confidence_label 0.8 = "high" ∧
    get_confidence_label 0.79999 = "medium" ∧
    get_confidence_label 0.5 = "medium" ∧
    get_confidence_label 0.3 = "low" ∧
    get_confidence_label 0.29999 = "very_low" ∧
    (∀ s : ℚ, (0.8 ≤ s → get_confidence_label s = "high") ∧
      (0.5 ≤ s ∧ s < 0.8 → get_confidence_label s = "medium") ∧
      (0.3 ≤ s ∧ s < 0.5 → get_confidence_label s = "low") ∧
      (s < 0.3 → get_confidence_label s = "very_low")) := by
  refine ⟨by norm_num [get_confidence_label], by norm_num [get_confidence_label],
    by norm_num [get_confidence_label], by norm_num [get_confidence_label],
    by norm_num [get_confidence_label], ?_⟩
  intro s
  refine ⟨?_, ?_, ?_, ?_⟩ <;> intro h <;>
    simp only [get_confidence_label] <;>
    split_ifs <;> try rfl
  all_goals exfalso
  all_goals try obtain ⟨h1, h2⟩ := h
  all_goals linarith

/-- Witness for C6: the general threshold clauses applied at concrete scores. -/
theorem C6_confidence_label_boundaries_witness :
    get_confidence_label 0.95 = "high" ∧ get_confidence_label 0.31 = "low" :=
  ⟨(C6_confidence_label_boundaries.2.2.2.2.2 0.95).1 (by norm_num),
   (C6_confidence_label_boundaries.2.2.2.2.2 0.31).2.2.1 (by norm_num)⟩

/-- Claim C8: with every other calibration factor held fixed, the calibrated
confidence score is monotonically non-decreasing in `stack_trace_match` as it
increases from 0 to 1. -/
theorem C8_calibrate_monotone_in_stack_trace_match
    (f : CalibrationFactors) (s₁ s₂ : ℚ)
    (h0 : 0 ≤ s₁) (h12 : s₁ ≤ s₂) (h1 : s₂ ≤ 1) :
    calibrate { f with stack_trace_match := s₁ } ≤
      calibrate { f with stack_trace_match := s₂ } := by
  simp only [calibrate, WEIGHTS_stack_trace_match, WEIGHTS_call_graph_proximity,
    WEIGHTS_semantic_similarity, WEIGHTS_keyword_match, WEIGHTS_context_match]
  refine min_le_min le_rfl (max_le_max le_rfl ?_)
  split_ifs <;> nlinarith

/-- Witness for C8: the monotonicity theorem applied at a concrete factor
record with `stack_trace_match` raised from 0 to 1. -/
theorem C8_calibrate_monotone_in_stack_trace_match_witness :
    calibrate { ({} : CalibrationFactors) with stack_trace_match := 0 } ≤
      calibrate { ({} : CalibrationFactors) with stack_trace_match := 1 } :=
  C8_calibrate_monotone_in_stack_trace_match {} 0 1 (by norm_num)
    (by norm_num) (by norm_num)

theorem mem_predecessors {g : CallGraph} {x node : String} :
    x ∈ g.predecessors node ↔ (x, node) ∈ g.edges := by
  simp only [CallGraph.predecessors, List.mem_toFinset, List.mem_map,
    List.mem_filter, decide_eq_true_eq]
  constructor
  · rintro ⟨⟨a, b⟩, ⟨hmem, hb⟩, hx⟩
    simp only at hb hx
    subst hb; subst hx; exact hmem
  · intro h
    exact ⟨(x, node), ⟨h, rfl⟩, rfl⟩

theorem pathLen_le_succ {g : CallGraph} {s x : String} {n k : Nat}
    (h1 : 1 ≤ n) (hk : n ≤ k) (p : g.pathLen n x s) :
    ∃ n, 1 ≤ n ∧ n ≤ k + 1 ∧ g.pathLen n x s :=
  ⟨n, h1, Nat.le_succ_of_le hk, p⟩

theorem callersStep_iterate_spec (g : CallGraph) (s : String) (k : Nat) :
    (∀ x, x ∈ ((CallGraph.callersStep g)^[k] (∅, {s})).1 ↔
      ∃ n, 1 ≤ n ∧ n ≤ k ∧ g.pathLen n x s) ∧
    (∀ x, x ∈ ((CallGraph.callersStep g)^[k] (∅, {s})).2 ↔
      ((k = 0 ∧ x = s) ∨
        (1 ≤ k ∧ (∃ n, 1 ≤ n ∧ n ≤ k ∧ g.pathLen n x s) ∧
          ¬ ∃ n, 1 ≤ n ∧ n ≤ k - 1 ∧ g.pathLen n x s))) := by
  induction k with
  | zero =>
    constructor
    · intro x
      simp only [Function.iterate_zero, id_eq, Finset.not_mem_empty, false_iff]
      rintro ⟨n, h1, h0, -⟩
      omega
    · intro x
      simp only [Function.iterate_zero, id_eq, Finset.mem_singleton]
      constructor
      · intro h; exact Or.inl ⟨by trivial, h⟩
      · rintro (⟨-, h⟩ | ⟨h, -, -⟩)
        · exact h
        · omega
  | succ k ih =>
    obtain ⟨ihC, ihF⟩ := ih
    rw [Function.iterate_succ_apply']
    set st := (CallGraph.callersStep g)^[k] (∅, ({s} : Finset String)) with hst
    have hNL : ∀ x, x ∈ (CallGraph.callersStep g st).2 ↔
        ((∃ n, 1 ≤ n ∧ n ≤ k + 1 ∧ g.pathLen n x s) ∧
          ¬ ∃ n, 1 ≤ n ∧ n ≤ k ∧ g.pathLen n x s) := by
      intro x
      simp only [CallGraph.callersStep, Finset.mem_sdiff, Finset.mem_biUnion]
      rw [ihC x]
      constructor
      · rintro ⟨⟨y, hy, hxy⟩, hnot⟩
        rw [mem_predecessors] at hxy
        refine ⟨?_, hnot⟩
        rcases (ihF y).mp hy with ⟨hk0, rfl⟩ | ⟨h1k, ⟨n, h1, hnk, p⟩, -⟩
        · exact ⟨1, le_refl 1, by omega, y, hxy, rfl⟩
        · exact ⟨n + 1, by omega, by omega, y, hxy, p⟩
      · rintro ⟨⟨m, h1m, hmk, p⟩, hnot⟩
        have hm : m = k + 1 := by
          by_contra hne
          exact hnot ⟨m, h1m, by omega, p⟩
        subst hm
        obtain ⟨y, hxy, py⟩ := p
        refine ⟨⟨y, ?_, mem_predecessors.mpr hxy⟩, hnot⟩
        rw [ihF y]
        rcases Nat.eq_zero_or_pos k with hk0 | hkpos
        · subst hk0
          exact Or.inl ⟨rfl, py⟩
        · refine Or.inr ⟨hkpos, ⟨k, hkpos, le_refl k, py⟩, ?_⟩
          rintro ⟨j, h1j, hjk, q⟩
          exact hnot ⟨j + 1, by omega, by omega, y, hxy, q⟩
    constructor
    · intro x
      simp only [CallGraph.callersStep, Finset.mem_union]
      have h2 := hNL x
      simp only [CallGraph.callersStep] at h2
      rw [ihC x, h2]
      constructor
      · rintro (⟨n, h1, hnk, p⟩ | ⟨h, -⟩)
        · exact ⟨n, h1, by omega, p⟩
        · exact h
      · intro h
        by_cases hin : ∃ n, 1 ≤ n ∧ n ≤ k ∧ g.pathLen n x s
        · exact Or.inl hin
        · exact Or.inr ⟨h, hin⟩
    · intro x
      rw [hNL x]
      constructor
      · rintro ⟨h, hnot⟩
        exact Or.inr ⟨by omega, h, by simpa using hnot⟩
      · rintro (⟨hk, -⟩ | ⟨-, h, hnot⟩)
        · omega
        · exact ⟨h, by simpa using hnot⟩

/-- Claim C5: for a node `s` of the graph, `get_callers s depth` contains
exactly the nodes from which `s` is reachable by 1 to `depth` forward call
edges (breadth-first collection, never re-adding a collected node); in
particular on the chain A→B→C→D→E, `get_callers "E" 2` is exactly {C, D}. -/
theorem C5_get_callers_depth_bound (g : CallGraph) (s : String) (depth : Nat)
    (h : s ∈ g.nodes) :
    (∀ x, x ∈ g.get_callers s depth ↔
      ∃ n, 1 ≤ n ∧ n ≤ depth ∧ g.pathLen n x s) ∧
    chainGraph.get_callers "E" 2 = {"C", "D"} := by
  constructor
  · intro x
    unfold CallGraph.get_callers
    simp only [if_pos h]
    exact (callersStep_iterate_spec g s depth).1 x
  · decide

/-- Witness for C5: the characterization applied to the chain graph shows
that "D" (one backward hop from "E") is collected at depth 2. -/
theorem C5_get_callers_depth_bound_witness :
    "D" ∈ chainGraph.get_callers "E" 2 := by
  refine ((C5_get_callers_depth_bound chainGraph "E" 2 (by decide)).1 "D").mpr
    ⟨1, le_refl 1, by norm_num, ?_⟩
  show ∃ c, ("D", c) ∈ chainGraph.edges ∧ chainGraph.pathLen 0 c "E"
  exact ⟨"E", by decide, rfl⟩

/-- Claim C10: `get_callers` can return the queried node itself: on the
two-node cycle A→B→A, `get_callers "A" 2` contains "A", because the start
node is never pre-added to the collected set before expansion. -/
theorem C10_get_callers_cycle_includes_start :
    "A" ∈ cycleGraph.get_callers "A" 2 ∧
    cycleGraph.get_callers "A" 2 = {"B", "A"} := by decide

theorem lookup_none_iff {l : List (String × CodeEntity × ℚ)} {k : String} :
    l.lookup k = none ↔ k ∉ l.map Prod.fst := by
  induction l with
  | nil => simp [List.lookup]
  | cons a l ih =>
    obtain ⟨k', v'⟩ := a
    rw [List.lookup_cons]
    by_cases h : k = k'
    · subst h; simp
    · have hb : (k == k') = false := beq_eq_false_iff_ne.mpr h
      simp [hb, ih, h]

theorem lookup_some_mem {l : List (String × CodeEntity × ℚ)} {k : String}
    {v : CodeEntity × ℚ} (h : l.lookup k = some v) : (k, v) ∈ l := by
  induction l with
  | nil => simp [List.lookup] at h
  | cons a l ih =>
    obtain ⟨k', v'⟩ := a
    rw [List.lookup_cons] at h
    by_cases hk : k = k'
    · subst hk
      simp only [beq_self_eq_true] at h
      injection h with h
      subst h
      exact List.mem_cons_self _ _
    · have hb : (k == k') = false := beq_eq_false_iff_ne.mpr hk
      simp only [hb] at h
      exact List.mem_cons_of_mem _ (ih h)

theorem mem_iff_lookup {l : List (String × CodeEntity × ℚ)}
    (hnd : (l.map Prod.fst).Nodup) {k : String} {v : CodeEntity × ℚ} :
    (k, v) ∈ l ↔ l.lookup k = some v := by
  refine ⟨?_, lookup_some_mem⟩
  intro hm
  induction l with
  | nil => simp at hm
  | cons a l ih =>
    obtain ⟨k', v'⟩ := a
    simp only [List.map_cons, List.nodup_cons] at hnd
    rw [List.lookup_cons]
    rcases List.mem_cons.mp hm with heq | hm'
    · rw [Prod.mk.injEq] at heq
      obtain ⟨h1, h2⟩ := heq
      subst h1; subst h2
      simp
    · by_cases hk : k = k'
      · exfalso
        subst hk
        exact hnd.1 (List.mem_map.mpr ⟨(k, v), hm', rfl⟩)
      · have hb : (k == k') = false := beq_eq_false_iff_ne.mpr hk
        simp only [hb]
        exact ih hnd.2 hm'

theorem setScore_of_lookup_none {l : List (String × CodeEntity × ℚ)}
    {k : String} (h : l.lookup k = none) (v : CodeEntity × ℚ) :
    setScore l k v = l ++ [(k, v)] := by
  induction l with
  | nil => rfl
  | cons a l ih =>
    obtain ⟨k', v'⟩ := a
    rw [List.lookup_cons] at h
    by_cases hk : k = k'
    · subst hk; simp at h
    · have hb : (k == k') = false := beq_eq_false_iff_ne.mpr hk
      simp only [hb] at h
      show (if k' = k then _ else _) = _
      rw [if_neg (Ne.symm hk), ih h]
      simp

theorem setScore_lookup_self (l : List (String × CodeEntity × ℚ))
    (k : String) (v : CodeEntity × ℚ) :
    (setScore l k v).lookup k = some v := by
  induction l with
  | nil => simp [setScore, List.lookup_cons]
  | cons a l ih =>
    obtain ⟨k', v'⟩ := a
    show (List.lookup k (if k' = k then _ else _)) = _
    by_cases hk : k' = k
    · rw [if_pos hk, List.lookup_cons]; simp
    · rw [if_neg hk, List.lookup_cons]
      have hb : (k == k') = false := beq_eq_false_iff_ne.mpr (Ne.symm hk)
      simp only [hb]
      exact ih

theorem setScore_lookup_ne (l : List (String × CodeEntity × ℚ))
    (k k' : String) (v : CodeEntity × ℚ) (h : k' ≠ k) :
    (setScore l k v).lookup k' = l.lookup k' := by
  induction l with
  | nil =>
    have hb : (k' == k) = false := beq_eq_false_iff_ne.mpr h
    simp [setScore, List.lookup_cons, hb, List.lookup]
  | cons a l ih =>
    obtain ⟨ka, va⟩ := a
    show (List.lookup k' (if ka = k then _ else _)) = _
    by_cases hka : ka = k
    · rw [if_pos hka]
      subst hka
      rw [List.lookup_cons, List.lookup_cons]
      have hb : (k' == ka) = false := beq_eq_false_iff_ne.mpr h
      simp [hb]
    · rw [if_neg hka, List.lookup_cons, List.lookup_cons]
      by_cases hk' : k' = ka
      · subst hk'; simp
      · have hb : (k' == ka) = false := beq_eq_false_iff_ne.mpr hk'
        simp only [hb]
        exact ih

theorem setScore_keys_of_lookup_some {l : List (String × CodeEntity × ℚ)}
    {k : String} {w : CodeEntity × ℚ} (h : l.lookup k = some w)
    (v : CodeEntity × ℚ) :
    (setScore l k v).map Prod.fst = l.map Prod.fst := by
  induction l with
  | nil => simp [List.lookup] at h
  | cons a l ih =>
    obtain ⟨ka, va⟩ := a
    rw [List.lookup_cons] at h
    show (List.map Prod.fst (if ka = k then _ else _)) = _
    by_cases hka : ka = k
    · rw [if_pos hka]; subst hka; simp
    · rw [if_neg hka]
      have hb : (k == ka) = false := beq_eq_false_iff_ne.mpr (Ne.symm hka)
      simp only [hb] at h
      simp [ih h]

theorem scoresOf_append (l1 l2 : List (CodeEntity × ℚ)) (i : String) :
    scoresOf (l1 ++ l2) i = scoresOf l1 i ++ scoresOf l2 i := by
  simp [scoresOf, List.filter_append]

theorem scoresOf_snoc (l : List (CodeEntity × ℚ)) (c : CodeEntity × ℚ)
    (i : String) :
    scoresOf (l ++ [c]) i =
      scoresOf l i ++ (if c.1.id = i then [c.2] else []) := by
  rw [scoresOf_append]
  congr 1
  by_cases h : c.1.id = i <;> simp [scoresOf, h]

theorem mem_scoresOf_iff {l : List (CodeEntity × ℚ)} {i : String} {q : ℚ} :
    q ∈ scoresOf l i ↔ ∃ c, c ∈ l ∧ c.1.id = i ∧ c.2 = q := by
  simp only [scoresOf, List.mem_map, List.mem_filter, decide_eq_true_eq]
  constructor
  · rintro ⟨c, ⟨hc, hi⟩, hq⟩
    exact ⟨c, hc, hi, hq⟩
  · rintro ⟨c, hc, hi, hq⟩
    exact ⟨c, ⟨hc, hi⟩, hq⟩

theorem isMaxOf_unique {s t : ℚ} {l : List ℚ}
    (hs : isMaxOf s l) (ht : isMaxOf t l) : s = t :=
  le_antisymm (ht.2 s hs.1) (hs.2 t ht.1)

theorem mergeInsert_inv {processed : List (CodeEntity × ℚ)}
    {acc : List (String × CodeEntity × ℚ)} {c : CodeEntity × ℚ}
    (h : mergeInv processed acc) :
    mergeInv (processed ++ [c]) (mergeInsert acc c) := by
  obtain ⟨hnd, hspec⟩ := h
  unfold mergeInsert
  cases hl : acc.lookup c.1.id with
  | none =>
    constructor
    · have hkeys : (setScore acc c.1.id c).map Prod.fst =
          acc.map Prod.fst ++ [c.1.id] := by
        rw [setScore_of_lookup_none hl]; simp
      rw [hkeys]
      refine List.Nodup.append hnd (List.nodup_singleton _) ?_
      intro x hx hx'
      simp only [List.mem_singleton] at hx'
      subst hx'
      exact (lookup_none_iff.mp hl) hx
    · intro k
      by_cases hk : k = c.1.id
      · subst hk
        refine ⟨?_, ?_⟩
        · intro habs
          rw [setScore_lookup_self] at habs
          cases habs
        · intro v hv
          rw [setScore_lookup_self] at hv
          injection hv with hv
          subst hv
          refine ⟨rfl, ?_⟩
          rw [scoresOf_snoc, (hspec c.1.id).1 hl, if_pos rfl]
          exact ⟨by simp, by intro q hq; simp at hq; rw [hq]⟩
      · have hne : c.1.id ≠ k := fun hh => hk hh.symm
        refine ⟨?_, ?_⟩
        · intro hnone
          rw [setScore_lookup_ne _ _ _ _ hk] at hnone
          rw [scoresOf_snoc, (hspec k).1 hnone, if_neg hne]
          simp
        · intro v hv
          rw [setScore_lookup_ne _ _ _ _ hk] at hv
          obtain ⟨hid, hmax⟩ := (hspec k).2 v hv
          refine ⟨hid, ?_⟩
          rw [scoresOf_snoc, if_neg hne]
          simpa using hmax
  | some prev =>
    dsimp only
    by_cases hlt : prev.2 < c.2
    · rw [if_pos hlt]
      constructor
      · rw [setScore_keys_of_lookup_some hl]
        exact hnd
      · intro k
        by_cases hk : k = c.1.id
        · subst hk
          refine ⟨?_, ?_⟩
          · intro habs
            rw [setScore_lookup_self] at habs
            cases habs
          · intro v hv
            rw [setScore_lookup_self] at hv
            injection hv with hv
            subst hv
            obtain ⟨hid, hmax⟩ := (hspec c.1.id).2 prev hl
            refine ⟨rfl, ?_⟩
            rw [scoresOf_snoc, if_pos rfl]
            constructor
            · exact List.mem_append_right _ (by simp)
            · intro q hq
              rcases List.mem_append.mp hq with hq | hq
              · exact le_of_lt (lt_of_le_of_lt (hmax.2 q hq) hlt)
              · simp at hq; rw [hq]
        · have hne : c.1.id ≠ k := fun hh => hk hh.symm
          refine ⟨?_, ?_⟩
          · intro hnone
            rw [setScore_lookup_ne _ _ _ _ hk] at hnone
            rw [scoresOf_snoc, (hspec k).1 hnone, if_neg hne]
            simp
          · intro v hv
            rw [setScore_lookup_ne _ _ _ _ hk] at hv
            obtain ⟨hid, hmax⟩ := (hspec k).2 v hv
            refine ⟨hid, ?_⟩
            rw [scoresOf_snoc, if_neg hne]
            simpa using hmax
    · rw [if_neg hlt]
      refine ⟨hnd, ?_⟩
      intro k
      by_cases hk : k = c.1.id
      · subst hk
        refine ⟨?_, ?_⟩
        · intro habs
          rw [habs] at hl
          cases hl
        · intro v hv
          rw [hl] at hv
          injection hv with hv
          subst hv
          obtain ⟨hid, hmax⟩ := (hspec c.1.id).2 prev hl
          refine ⟨hid, ?_⟩
          rw [scoresOf_snoc, if_pos rfl]
          constructor
          · exact List.mem_append_left _ hmax.1
          · intro q hq
            rcases List.mem_append.mp hq with hq | hq
            · exact hmax.2 q hq
            · simp at hq; rw [hq]; exact le_of_not_lt hlt
      · have hne : c.1.id ≠ k := fun hh => hk hh.symm
        refine ⟨?_, ?_⟩
        · intro hnone
          rw [scoresOf_snoc, (hspec k).1 hnone, if_neg hne]
          simp
        · intro v hv
          obtain ⟨hid, hmax⟩ := (hspec k).2 v hv
          refine ⟨hid, ?_⟩
          rw [scoresOf_snoc, if_neg hne]
          simpa using hmax

theorem foldl_mergeInsert_inv (items : List (CodeEntity × ℚ)) :
    ∀ (processed : List (CodeEntity × ℚ))
      (acc : List (String × CodeEntity × ℚ)),
      mergeInv processed acc →
      mergeInv (processed ++ items) (items.foldl mergeInsert acc) := by
  induction items with
  | nil => intro processed acc h; simpa using h
  | cons x items ih =>
    intro processed acc h
    rw [List.foldl_cons]
    have h2 := ih (processed ++ [x]) (mergeInsert acc x) (mergeInsert_inv h)
    have heq : (processed ++ [x]) ++ items = processed ++ x :: items := by simp
    rwa [heq] at h2

theorem merge_inv (L : List (CodeEntity × ℚ)) :
    mergeInv L (L.foldl mergeInsert []) := by
  have h0 : mergeInv [] [] := by
    refine ⟨List.nodup_nil, ?_⟩
    intro k
    exact ⟨fun _ => rfl, fun v hv => by cases hv⟩
  simpa using foldl_mergeInsert_inv L [] [] h0

theorem merge_mem_iff (d e s : List (CodeEntity × ℚ)) (c : CodeEntity × ℚ) :
    c ∈ _merge_candidates d e s ↔
      ((d ++ e ++ s).foldl mergeInsert []).lookup c.1.id = some c := by
  have hinv := merge_inv (d ++ e ++ s)
  show c ∈ List.insertionSort scoreGe _ ↔ _
  rw [(List.perm_insertionSort scoreGe _).mem_iff]
  constructor
  · intro hm
    rcases List.mem_map.mp hm with ⟨⟨k, v⟩, hkv, hveq⟩
    simp only at hveq
    have hlk := (mem_iff_lookup hinv.1).mp hkv
    rw [hveq] at hlk
    have hid := ((hinv.2 k).2 c hlk).1
    rwa [hid]
  · intro hl
    exact List.mem_map.mpr ⟨(c.1.id, c), lookup_some_mem hl, rfl⟩

theorem merge_score_isMax (d e s : List (CodeEntity × ℚ))
    (c : CodeEntity × ℚ) (hc : c ∈ _merge_candidates d e s) :
    isMaxOf c.2 (scoresOf (d ++ e ++ s) c.1.id) := by
  rw [merge_mem_iff] at hc
  exact (((merge_inv (d ++ e ++ s)).2 c.1.id).2 c hc).2

theorem merge_ids_nodup (d e s : List (CodeEntity × ℚ)) :
    ((_merge_candidates d e s).map fun c => c.1.id).Nodup := by
  have hinv := merge_inv (d ++ e ++ s)
  have hperm : ((_merge_candidates d e s).map fun c => c.1.id).Perm
      ((((d ++ e ++ s).foldl mergeInsert []).map Prod.snd).map
        fun c => c.1.id) :=
    List.Perm.map _ (List.perm_insertionSort scoreGe _)
  rw [hperm.nodup_iff, List.map_map]
  have heq : (((d ++ e ++ s).foldl mergeInsert []).map
        ((fun c => c.1.id) ∘ Prod.snd)) =
      (((d ++ e ++ s).foldl mergeInsert []).map Prod.fst) := by
    apply List.map_congr_left
    intro kv hkv
    obtain ⟨k, v⟩ := kv
    have hlk := (mem_iff_lookup hinv.1).mp hkv
    exact ((hinv.2 k).2 v hlk).1
  rw [heq]
  exact hinv.1

theorem merge_id_covers (d e s : List (CodeEntity × ℚ))
    (c : CodeEntity × ℚ) (hc : c ∈ d ++ e ++ s) :
    ∃ c' ∈ _merge_candidates d e s, c'.1.id = c.1.id := by
  have hinv := merge_inv (d ++ e ++ s)
  cases hl : ((d ++ e ++ s).foldl mergeInsert []).lookup c.1.id with
  | none =>
    exfalso
    have h0 := (hinv.2 c.1.id).1 hl
    have : c.2 ∈ scoresOf (d ++ e ++ s) c.1.id :=
      mem_scoresOf_iff.mpr ⟨c, hc, rfl, rfl⟩
    rw [h0] at this
    exact List.not_mem_nil _ this
  | some v =>
    have hid := ((hinv.2 c.1.id).2 v hl).1
    refine ⟨v, ?_, hid⟩
    rw [merge_mem_iff, hid]
    exact hl

theorem merge_sorted (d e s : List (CodeEntity × ℚ)) :
    List.Sorted scoreGe (_merge_candidates d e s) :=
  List.sorted_insertionSort scoreGe _

theorem pairSet_merge (d e s : List (CodeEntity × ℚ)) (p : String × ℚ) :
    p ∈ pairSet (_merge_candidates d e s) ↔
      isMaxOf p.2 (scoresOf (d ++ e ++ s) p.1) := by
  obtain ⟨i, q⟩ := p
  simp only [pairSet, List.mem_toFinset, List.mem_map]
  have hinv := merge_inv (d ++ e ++ s)
  constructor
  · rintro ⟨c, hc, hpc⟩
    rw [Prod.mk.injEq] at hpc
    obtain ⟨h1, h2⟩ := hpc
    subst h1; subst h2
    exact merge_score_isMax d e s c hc
  · intro hmax
    cases hv : ((d ++ e ++ s).foldl mergeInsert []).lookup i with
    | none =>
      exfalso
      have h0 := (hinv.2 i).1 hv
      have : (q : ℚ) ∈ scoresOf (d ++ e ++ s) i := hmax.1
      rw [h0] at this
      exact List.not_mem_nil _ this
    | some v =>
      obtain ⟨hid, hmax'⟩ := (hinv.2 i).2 v hv
      have hvq : v.2 = q := isMaxOf_unique (hid ▸ hmax') (hid ▸ hmax)
      refine ⟨v, ?_, ?_⟩
      · rw [merge_mem_iff, hid]
        exact hv
      · rw [Prod.mk.injEq]
        exact ⟨hid, hvq⟩

theorem merge_concrete_example :
    _merge_candidates [(entE, 0.6)] [] [(entE, 0.9)] = [(entE, 0.9)] := by
  show List.insertionSort scoreGe
    ((List.foldl mergeInsert [] ([(entE, 0.6)] ++ [] ++ [(entE, 0.9)])).map
      Prod.snd) = _
  norm_num [mergeInsert, setScore, List.lookup, entE,
    List.insertionSort, List.orderedInsert]

/-- Claim C1: merging candidate lists yields one candidate per entity id,
whose score is the maximum of all scores for that id across the inputs,
with every input id represented and the output sorted descending by score;
in particular an entity appearing with scores 0.6 and 0.9 merges to
exactly 0.9. -/
theorem C1_merge_max_wins_sorted
    (direct expanded searched : List (CodeEntity × ℚ)) :
    (((_merge_candidates direct expanded searched).map
        fun c => c.1.id).Nodup ∧
     (∀ c ∈ _merge_candidates direct expanded searched,
        isMaxOf c.2 (scoresOf (direct ++ expanded ++ searched) c.1.id)) ∧
     (∀ c ∈ direct ++ expanded ++ searched,
        ∃ c' ∈ _merge_candidates direct expanded searched,
          c'.1.id = c.1.id) ∧
     List.Sorted scoreGe (_merge_candidates direct expanded searched)) ∧
    _merge_candidates [(entE, 0.6)] [] [(entE, 0.9)] = [(entE, 0.9)] :=
  ⟨⟨merge_ids_nodup direct expanded searched,
    fun c hc => merge_score_isMax direct expanded searched c hc,
    fun c hc => merge_id_covers direct expanded searched c hc,
    merge_sorted direct expanded searched⟩,
   merge_concrete_example⟩

/-- Witness for C1: on the concrete two-list input, the merged candidate
for id "E" is present with score 0.9, the maximum of 0.6 and 0.9. -/
theorem C1_merge_max_wins_sorted_witness :
    (entE, (0.9 : ℚ)) ∈ _merge_candidates [(entE, 0.6)] [] [(entE, 0.9)] ∧
    isMaxOf 0.9 (scoresOf ([(entE, 0.6)] ++ [] ++ [(entE, 0.9)]) entE.id) := by
  have h := C1_merge_max_wins_sorted [(entE, 0.6)] [] [(entE, 0.9)]
  have hm : (entE, (0.9 : ℚ)) ∈ _merge_candidates [(entE, 0.6)] [] [(entE, 0.9)] := by
    rw [h.2]
    exact List.mem_singleton_self _
  exact ⟨hm, h.1.2.1 (entE, 0.9) hm⟩

theorem filter_id_nodup (r : List (CodeEntity × ℚ))
    (h : (r.map fun c => c.1.id).Nodup) (i : String) :
    (r.filter fun c => decide (c.1.id = i)) = [] ∨
      ∃ c, (r.filter fun c => decide (c.1.id = i)) = [c] ∧
        c ∈ r ∧ c.1.id = i := by
  induction r with
  | nil => exact Or.inl rfl
  | cons a r ih =>
    simp only [List.map_cons, List.nodup_cons] at h
    obtain ⟨ha, h'⟩ := h
    by_cases hai : a.1.id = i
    · have hfa : ((a :: r).filter fun c => decide (c.1.id = i)) =
          a :: (r.filter fun c => decide (c.1.id = i)) := by
        simp [List.filter_cons, hai]
      have h0 : (r.filter fun c => decide (c.1.id = i)) = [] := by
        rcases ih h' with h0 | ⟨c, _, hcr, hci⟩
        · exact h0
        · exact absurd (List.mem_map.mpr ⟨c, hcr, by rw [hci, ← hai]⟩) ha
      exact Or.inr ⟨a, by rw [hfa, h0], List.mem_cons_self a r, hai⟩
    · have hfa : ((a :: r).filter fun c => decide (c.1.id = i)) =
          (r.filter fun c => decide (c.1.id = i)) := by
        simp [List.filter_cons, hai]
      rcases ih h' with h0 | ⟨c, hc, hcr, hci⟩
      · exact Or.inl (by rw [hfa]; exact h0)
      · exact Or.inr ⟨c, by rw [hfa]; exact hc,
          List.mem_cons_of_mem _ hcr, hci⟩

theorem merge_scoresOf (d e s : List (CodeEntity × ℚ)) (i : String) :
    (scoresOf (_merge_candidates d e s) i = [] ∧
      scoresOf (d ++ e ++ s) i = []) ∨
    (∃ m, scoresOf (_merge_candidates d e s) i = [m] ∧
      isMaxOf m (scoresOf (d ++ e ++ s) i)) := by
  rcases filter_id_nodup (_merge_candidates d e s)
      (merge_ids_nodup d e s) i with h0 | ⟨c, hc, hcM, hci⟩
  · left
    refine ⟨by simp [scoresOf, h0], ?_⟩
    by_contra hne
    obtain ⟨q, hq⟩ := List.exists_mem_of_ne_nil _ hne
    obtain ⟨c', hc', hci', _⟩ := mem_scoresOf_iff.mp hq
    obtain ⟨c'', hc''M, hc''i⟩ := merge_id_covers d e s c' hc'
    have : c'' ∈ (_merge_candidates d e s).filter
        fun c => decide (c.1.id = i) :=
      List.mem_filter.mpr ⟨hc''M, by simp [hc''i, hci']⟩
    rw [h0] at this
    exact List.not_mem_nil _ this
  · right
    refine ⟨c.2, by simp [scoresOf, hc], ?_⟩
    have hmax := merge_score_isMax d e s c hcM
    rwa [hci] at hmax

theorem isMaxOf_append_congr {l1' l1 l2 : List ℚ}
    (h : (l1' = [] ∧ l1 = []) ∨ ∃ m, l1' = [m] ∧ isMaxOf m l1) (q : ℚ) :
    isMaxOf q (l1' ++ l2) ↔ isMaxOf q (l1 ++ l2) := by
  rcases h with ⟨h1, h2⟩ | ⟨m, h1, hm⟩
  · rw [h1, h2]
  · subst h1
    constructor
    · rintro ⟨hmem, hub⟩
      have hmq : m ≤ q := hub m (by simp)
      constructor
      · rcases List.mem_append.mp hmem with hx | hx
        · simp only [List.mem_singleton] at hx
          subst hx
          exact List.mem_append_left _ hm.1
        · exact List.mem_append_right _ hx
      · intro x hx
        rcases List.mem_append.mp hx with hx | hx
        · exact le_trans (hm.2 x hx) hmq
        · exact hub x (List.mem_append_right _ hx)
    · rintro ⟨hmem, hub⟩
      have hmq : m ≤ q := hub m (List.mem_append_left _ hm.1)
      constructor
      · rcases List.mem_append.mp hmem with hx | hx
        · have hqm : q = m := le_antisymm (hm.2 q hx) hmq
          rw [hqm]
          exact List.mem_append_left _ (by simp)
        · exact List.mem_append_right _ hx
      · intro x hx
        rcases List.mem_append.mp hx with hx | hx
        · simp only [List.mem_singleton] at hx
          rw [hx]
          exact hmq
        · exact hub x (List.mem_append_right _ hx)

/-- Claim C7: merging is idempotent in the stated sense: re-merging the
result of `merge(A, B)` with `C` yields the same set of
(entity id, max score) pairs as `merge(A, B, C)`. -/
theorem C7_merge_idempotent (A B C : List (CodeEntity × ℚ)) :
    pairSet (_merge_candidates (_merge_candidates A B []) C []) =
      pairSet (_merge_candidates A B C) := by
  apply Finset.ext
  intro p
  rw [pairSet_merge, pairSet_merge]
  have hL : _merge_candidates A B [] ++ C ++ [] =
      _merge_candidates A B [] ++ C := by simp
  rw [hL, scoresOf_append]
  have hR : scoresOf (A ++ B ++ C) p.1 =
      (scoresOf A p.1 ++ scoresOf B p.1) ++ scoresOf C p.1 := by
    rw [scoresOf_append, scoresOf_append]
  rw [hR]
  apply isMaxOf_append_congr
  have hAB : scoresOf (A ++ B ++ []) p.1 =
      scoresOf A p.1 ++ scoresOf B p.1 := by
    rw [scoresOf_append, scoresOf_append]
    simp [scoresOf]
  rcases merge_scoresOf A B [] p.1 with ⟨h1, h2⟩ | ⟨m, h1, hm⟩
  · exact Or.inl ⟨h1, by rw [← hAB]; exact h2⟩
  · exact Or.inr ⟨m, h1, by rw [← hAB]; exact hm⟩

theorem foldl_min_le_init : ∀ (xs : List ℚ) (a : ℚ), xs.foldl min a ≤ a := by
  intro xs
  induction xs with
  | nil => intro a; exact le_refl a
  | cons x xs ih =>
    intro a
    rw [List.foldl_cons]
    exact le_trans (ih (min a x)) (min_le_left a x)

theorem foldl_min_le_mem : ∀ (xs : List ℚ) (a s : ℚ), s ∈ xs →
    xs.foldl min a ≤ s := by
  intro xs
  induction xs with
  | nil => intro a s h; simp at h
  | cons x xs ih =>
    intro a s h
    rw [List.foldl_cons]
    rcases List.mem_cons.mp h with rfl | h'
    · exact le_trans (foldl_min_le_init xs (min a s)) (min_le_right a s)
    · exact ih (min a x) s h'

theorem foldl_min_mem : ∀ (xs : List ℚ) (a : ℚ),
    xs.foldl min a = a ∨ xs.foldl min a ∈ xs := by
  intro xs
  induction xs with
  | nil => intro a; exact Or.inl rfl
  | cons x xs ih =>
    intro a
    rw [List.foldl_cons]
    rcases ih (min a x) with h | h
    · rcases min_choice a x with hm | hm
      · exact Or.inl (h.trans hm)
      · exact Or.inr (by rw [h, hm]; exact List.mem_cons_self x xs)
    · exact Or.inr (List.mem_cons_of_mem x h)

theorem foldl_max_init_le : ∀ (xs : List ℚ) (a : ℚ), a ≤ xs.foldl max a := by
  intro xs
  induction xs with
  | nil => intro a; exact le_refl a
  | cons x xs ih =>
    intro a
    rw [List.foldl_cons]
    exact le_trans (le_max_left a x) (ih (max a x))

theorem foldl_max_mem_le : ∀ (xs : List ℚ) (a s : ℚ), s ∈ xs →
    s ≤ xs.foldl max a := by
  intro xs
  induction xs with
  | nil => intro a s h; simp at h
  | cons x xs ih =>
    intro a s h
    rw [List.foldl_cons]
    rcases List.mem_cons.mp h with rfl | h'
    · exact le_trans (le_max_right a s) (foldl_max_init_le xs (max a s))
    · exact ih (max a x) s h'

theorem foldl_max_mem : ∀ (xs : List ℚ) (a : ℚ),
    xs.foldl max a = a ∨ xs.foldl max a ∈ xs := by
  intro xs
  induction xs with
  | nil => intro a; exact Or.inl rfl
  | cons x xs ih =>
    intro a
    rw [List.foldl_cons]
    rcases ih (max a x) with h | h
    · rcases max_choice a x with hm | hm
      · exact Or.inl (h.trans hm)
      · exact Or.inr (by rw [h, hm]; exact List.mem_cons_self x xs)
    · exact Or.inr (List.mem_cons_of_mem x h)

theorem listMin_le_mem {l : List ℚ} {s : ℚ} (h : s ∈ l) :
    HybridRetriever.listMin l ≤ s := by
  cases l with
  | nil => simp at h
  | cons x xs =>
    show xs.foldl min x ≤ s
    rcases List.mem_cons.mp h with rfl | h'
    · exact foldl_min_le_init xs s
    · exact foldl_min_le_mem xs x s h'

theorem mem_le_listMax {l : List ℚ} {s : ℚ} (h : s ∈ l) :
    s ≤ HybridRetriever.listMax l := by
  cases l with
  | nil => simp at h
  | cons x xs =>
    show s ≤ xs.foldl max x
    rcases List.mem_cons.mp h with rfl | h'
    · exact foldl_max_init_le xs s
    · exact foldl_max_mem_le xs x s h'

theorem listMin_mem {l : List ℚ} (h : l ≠ []) :
    HybridRetriever.listMin l ∈ l := by
  cases l with
  | nil => exact absurd rfl h
  | cons x xs =>
    show xs.foldl min x ∈ x :: xs
    rcases foldl_min_mem xs x with h' | h'
    · rw [h']; exact List.mem_cons_self x xs
    · exact List.mem_cons_of_mem x h'

theorem listMax_mem {l : List ℚ} (h : l ≠ []) :
    HybridRetriever.listMax l ∈ l := by
  cases l with
  | nil => exact absurd rfl h
  | cons x xs =>
    show xs.foldl max x ∈ x :: xs
    rcases foldl_max_mem xs x with h' | h'
    · rw [h']; exact List.mem_cons_self x xs
    · exact List.mem_cons_of_mem x h'

theorem normalize_mem_bounds {scores : List ℚ} {s : ℚ} (h : s ∈ scores) :
    0 ≤ HybridRetriever._normalize s scores ∧
      HybridRetriever._normalize s scores ≤ 1 := by
  have hmin := listMin_le_mem h
  have hmax := mem_le_listMax h
  unfold HybridRetriever._normalize
  by_cases heq : HybridRetriever.listMax scores = HybridRetriever.listMin scores
  · rw [if_pos heq]; norm_num
  · rw [if_neg heq]
    have hlt : HybridRetriever.listMin scores < HybridRetriever.listMax scores :=
      lt_of_le_of_ne (le_trans hmin hmax) (Ne.symm heq)
    constructor
    · apply div_nonneg <;> linarith
    · rw [div_le_one (by linarith)]; linarith

theorem normalize_all_equal {scores : List ℚ} {s : ℚ} (h : s ∈ scores)
    (hall : ∀ t ∈ scores, t = s) :
    HybridRetriever._normalize s scores = 0.5 := by
  have hne : scores ≠ [] := by rintro rfl; simp at h
  have h1 : HybridRetriever.listMin scores = s := hall _ (listMin_mem hne)
  have h2 : HybridRetriever.listMax scores = s := hall _ (listMax_mem hne)
  unfold HybridRetriever._normalize
  rw [if_pos (h2.trans h1.symm)]

theorem search_score_shape (entities : List CodeEntity)
    (bm25_scores : List ℚ) (dense : Nat → ℚ) (top_k bm25_candidates : Nat)
    (c : CodeEntity × ℚ)
    (hc : c ∈ HybridRetriever.search entities bm25_scores dense top_k
      bm25_candidates) :
    ∃ idx e, entities.get? idx = some e ∧
      HybridRetriever.truthyEmbedding e.embedding = true ∧
      c = (e, 0.4 * HybridRetriever._normalize (bm25_scores.getD idx 0)
          bm25_scores + 0.6 * dense idx) := by
  unfold HybridRetriever.search at hc
  have hc' := List.mem_of_mem_take hc
  rw [(List.perm_insertionSort _ _).mem_iff] at hc'
  rcases List.mem_filterMap.mp hc' with ⟨idx, _, hf⟩
  cases hget : entities.get? idx with
  | none => rw [hget] at hf; simp at hf
  | some e =>
    rw [hget] at hf
    dsimp only at hf
    by_cases ht : HybridRetriever.truthyEmbedding e.embedding
    · refine ⟨idx, e, hget, ht, ?_⟩
      simp only [ht, if_true] at hf
      injection hf with hf
      exact hf.symm
    · rw [if_neg ht] at hf
      cases hf

/-- Claim C2 (amended): in hybrid search the BM25 score of each pooled
candidate is min-max normalized over the BM25 scores of all indexed
entities (the full score array computed by the lexical scorer), not over
the pooled candidates only; the normalized value lies in [0,1] and is 0.5
whenever all scores in that full array are equal. -/
theorem C2_search_corpus_normalization :
    (∀ (scores : List ℚ) (s : ℚ), s ∈ scores →
      0 ≤ HybridRetriever._normalize s scores ∧
        HybridRetriever._normalize s scores ≤ 1) ∧
    (∀ (scores : List ℚ) (s : ℚ), s ∈ scores → (∀ t ∈ scores, t = s) →
      HybridRetriever._normalize s scores = 0.5) ∧
    (∀ (entities : List CodeEntity) (scores : List ℚ) (dense : Nat → ℚ)
      (top_k bm25_candidates : Nat) (c : CodeEntity × ℚ),
      c ∈ HybridRetriever.search entities scores dense top_k
          bm25_candidates →
      ∃ idx e, entities.get? idx = some e ∧
        HybridRetriever.truthyEmbedding e.embedding = true ∧
        c = (e, 0.4 * HybridRetriever._normalize (scores.getD idx 0)
            scores + 0.6 * dense idx)) :=
  ⟨fun _ _ h => normalize_mem_bounds h,
   fun _ _ h hall => normalize_all_equal h hall,
   fun entities scores dense k bc c hc =>
     search_score_shape entities scores dense k bc c hc⟩

/-- Witness for C2: the normalization bounds and the search-score shape
instantiated on the concrete three-entity corpus. -/
theorem C2_search_corpus_normalization_witness :
    (0 ≤ HybridRetriever._normalize 1 [0, 1, 2] ∧
      HybridRetriever._normalize 1 [0, 1, 2] ≤ 1) ∧
    HybridRetriever._normalize 1 [1, 1] = 0.5 :=
  ⟨C2_search_corpus_normalization.1 [0, 1, 2] 1 (by norm_num),
   C2_search_corpus_normalization.2.1 [1, 1] 1 (by norm_num)
     (by intro t ht; simpa using ht)⟩

/-- Counterexample for C2 as stated: with corpus BM25 scores [0, 1, 2] and
a pool of size 2 (indices 2 and 1), the source-derived `search` normalizes
over the full array (candidate at index 1 gets normalized BM25 1/2, fused
score 0.2), while pool-scoped normalization as the claim words it would
give it normalized BM25 0 and fused score 0; the two functions disagree on
this input. -/
theorem search_ctrex_eval :
    HybridRetriever.search retrEntities [0, 1, 2] (fun _ => 0) 20 2 =
      [(ent2, 0.4), (ent1, 0.2)] := by
  norm_num [HybridRetriever.search, HybridRetriever.argsortAsc,
    List.insertionSort, List.orderedInsert, List.range_succ, retrEntities,
    HybridRetriever.truthyEmbedding, ent0, ent1, ent2,
    HybridRetriever._normalize, HybridRetriever.listMin,
    HybridRetriever.listMax, scoreGe]

theorem searchSpecPoolNorm_ctrex_eval :
    HybridRetriever.searchSpecPoolNorm retrEntities [0, 1, 2]
      (fun _ => 0) 20 2 = [(ent2, 0.4), (ent1, 0)] := by
  norm_num [HybridRetriever.searchSpecPoolNorm, HybridRetriever.argsortAsc,
    List.insertionSort, List.orderedInsert, List.range_succ, retrEntities,
    HybridRetriever.truthyEmbedding, ent0, ent1, ent2,
    HybridRetriever._normalize, HybridRetriever.listMin,
    HybridRetriever.listMax, scoreGe]

theorem C2_pool_normalization_counterexample :
    HybridRetriever.search retrEntities [0, 1, 2] (fun _ => 0) 20 2 =
      [(ent2, 0.4), (ent1, 0.2)] ∧
    HybridRetriever.searchSpecPoolNorm retrEntities [0, 1, 2]
        (fun _ => 0) 20 2 = [(ent2, 0.4), (ent1, 0)] ∧
    HybridRetriever.search retrEntities [0, 1, 2] (fun _ => 0) 20 2 ≠
      HybridRetriever.searchSpecPoolNorm retrEntities [0, 1, 2]
        (fun _ => 0) 20 2 := by
  refine ⟨search_ctrex_eval, searchSpecPoolNorm_ctrex_eval, ?_⟩
  intro h
  rw [search_ctrex_eval, searchSpecPoolNorm_ctrex_eval] at h
  simp only [List.cons.injEq, Prod.mk.injEq] at h
  exact absurd h.2.1.2 (by norm_num)

/-- Counterexample for C9 as stated: constructing the retriever over zero
entities does not succeed — `__init__` evaluates to a `ZeroDivisionError`
(raised by `BM25Okapi`'s `_initialize` dividing by `corpus_size = 0`), so
`search` is never reached on an empty corpus. -/
theorem C9_empty_corpus_construction_counterexample :
    HybridRetriever.__init__ (fun _ => []) [] =
      Except.error PyError.zeroDivisionError ∧
    (HybridRetriever.__init__ (fun _ => []) []).isOk = false :=
  ⟨rfl, rfl⟩

/-- Claim C9 (amended): constructing the retriever over zero entities
raises `ZeroDivisionError` (for every tokenization, `BM25Okapi`'s
initialization divides by the zero corpus size) rather than succeeding;
the search stage itself, given the empty entity list and the empty
per-entity score array, would return the empty result for every query,
topK and pool size. -/
theorem C9_empty_corpus_init_raises_search_empty :
    (∀ tokenize : CodeEntity → List String,
      HybridRetriever.__init__ tokenize [] =
        Except.error PyError.zeroDivisionError) ∧
    (∀ (bm25_scores : List ℚ) (dense : Nat → ℚ)
      (top_k bm25_candidates : Nat), bm25_scores.length = 0 →
      HybridRetriever.search [] bm25_scores dense top_k
        bm25_candidates = []) := by
  constructor
  · intro tokenize
    rfl
  · intro bm25_scores dense top_k bm25_candidates h
    rw [List.length_eq_zero] at h
    subst h
    simp [HybridRetriever.search, HybridRetriever.argsortAsc]

/-- Witness for C9: the amended theorem at a concrete tokenization and a
concrete empty query. -/
theorem C9_empty_corpus_init_raises_search_empty_witness :
    HybridRetriever.__init__ (fun e => [e.name]) [] =
      Except.error PyError.zeroDivisionError ∧
    HybridRetriever.search [] [] (fun _ => 0) 5 100 = [] :=
  ⟨C9_empty_corpus_init_raises_search_empty.1 (fun e => [e.name]),
   C9_empty_corpus_init_raises_search_empty.2 [] (fun _ => 0) 5 100 rfl⟩

theorem splitLines_no_newline :
    ∀ (l : List Char), '\n' ∉ l →
      PythonStackExtractor.splitLines l = [l] := by
  intro l
  induction l with
  | nil => intro _; rfl
  | cons c cs ih =>
    intro h
    have hc : ¬ c = '\n' := fun hh => h (hh ▸ List.mem_cons_self c cs)
    have hcs : '\n' ∉ cs := fun hh => h (List.mem_cons_of_mem c hh)
    show (if c = '\n' then _ else _) = _
    rw [if_neg hc, ih hcs]

theorem splitLines_append_newline :
    ∀ (l rest : List Char), '\n' ∉ l →
      PythonStackExtractor.splitLines (l ++ '\n' :: rest) =
        l :: PythonStackExtractor.splitLines rest := by
  intro l
  induction l with
  | nil =>
    intro rest _
    rw [List.nil_append]
    show (if '\n' = '\n' then _ else _) = _
    rw [if_pos rfl]
  | cons c cs ih =>
    intro rest h
    have hc : ¬ c = '\n' := fun hh => h (hh ▸ List.mem_cons_self c cs)
    have hcs : '\n' ∉ cs := fun hh => h (List.mem_cons_of_mem c hh)
    rw [List.cons_append]
    simp only [PythonStackExtractor.splitLines]
    rw [if_neg hc, ih rest hcs]

theorem splitLines_joinLines :
    ∀ (ls : List (List Char)), ls ≠ [] → (∀ l ∈ ls, '\n' ∉ l) →
      PythonStackExtractor.splitLines (PythonStackExtractor.joinLines ls) =
        ls := by
  intro ls
  induction ls with
  | nil => intro h _; exact absurd rfl h
  | cons l ls ih =>
    intro _ hnl
    cases ls with
    | nil =>
      exact splitLines_no_newline l (hnl l (List.mem_cons_self l []))
    | cons l' ls' =>
      show PythonStackExtractor.splitLines
        (l ++ '\n' :: PythonStackExtractor.joinLines (l' :: ls')) = _
      rw [splitLines_append_newline _ _ (hnl l (List.mem_cons_self l _)),
        ih (by simp) (fun x hx => hnl x (List.mem_cons_of_mem l hx))]

theorem findSome?_append_none {α β : Type} (f : α → Option β) :
    ∀ (l1 l2 : List α), (∀ x ∈ l1, f x = none) →
      (l1 ++ l2).findSome? f = l2.findSome? f := by
  intro l1
  induction l1 with
  | nil => intro l2 _; rfl
  | cons a l1 ih =>
    intro l2 h
    show List.findSome? f (a :: (l1 ++ l2)) = _
    rw [List.findSome?_cons]
    rw [h a (List.mem_cons_self a l1)]
    exact ih l2 fun x hx => h x (List.mem_cons_of_mem a hx)

/-- Counterexample for C3 as stated: on a traceback whose text contains two
exception-grammar lines, `extract` takes the FIRST match
("ValueError: first"), while the claim's last-match reading would take
"TypeError: second". -/
theorem C3_first_match_counterexample :
    PythonStackExtractor.extractExceptionInfo ctrexTrace =
      ("ValueError".data, "first".data) ∧
    PythonStackExtractor.extractExceptionInfoSpecLast ctrexTrace =
      ("TypeError".data, "second".data) ∧
    PythonStackExtractor.extractExceptionInfo ctrexTrace ≠
      PythonStackExtractor.extractExceptionInfoSpecLast ctrexTrace := by
  decide

/-- Claim C3 (amended): when a text contains lines matching the
exception-line grammar, `extract` sets exceptionType and message from the
FIRST such matching line (the `re.search` of the multiline pattern), not
the last. -/
theorem C3_first_exception_match_wins (pre : List (List Char))
    (l : List Char) (post : List (List Char)) (p : List Char × List Char)
    (hpre : ∀ l' ∈ pre, PythonStackExtractor.exceptionLineMatch l' = none)
    (hmatch : PythonStackExtractor.exceptionLineMatch l = some p)
    (hpreNl : ∀ l' ∈ pre, '\n' ∉ l') (hlNl : '\n' ∉ l)
    (hpostNl : ∀ l' ∈ post, '\n' ∉ l') :
    PythonStackExtractor.extractExceptionInfo
      (PythonStackExtractor.joinLines (pre ++ l :: post)) = p := by
  unfold PythonStackExtractor.extractExceptionInfo
  have hall : ∀ l' ∈ pre ++ l :: post, '\n' ∉ l' := by
    intro l' hl'
    rcases List.mem_append.mp hl' with h | h
    · exact hpreNl l' h
    · rcases List.mem_cons.mp h with rfl | h
      · exact hlNl
      · exact hpostNl l' h
  rw [splitLines_joinLines _ (by simp) hall,
    findSome?_append_none _ _ _ hpre, List.findSome?_cons, hmatch]

/-- Witness for C3: the first-match theorem applied to the concrete
two-exception traceback. -/
theorem C3_first_exception_match_wins_witness :
    PythonStackExtractor.extractExceptionInfo
      (PythonStackExtractor.joinLines
        (["Traceback (most recent call last):".data] ++
          "ValueError: first".data :: ["TypeError: second".data])) =
      ("ValueError".data, "first".data) :=
  C3_first_exception_match_wins _ _ _ _ (by decide) (by decide) (by decide)
    (by decide) (by decide)

/-- Counterexample for C4 as stated: when the model invocation itself
fails (e.g. a network timeout), the ranking step of `localize` evaluates
to that error — the exception propagates out of `localize` — and not to
the fallback truncation the claim requires. -/
theorem C4_invoke_error_propagates_counterexample :
    localizeRankStep true true (Except.error "ReadTimeoutError")
        (fun _ => none) [(entE, 0.9)] 5 =
      Except.error "ReadTimeoutError" ∧
    localizeRankStep true true (Except.error "ReadTimeoutError")
        (fun _ => none) [(entE, 0.9)] 5 ≠
      Except.ok (Sum.inl (LLMRanker.fallbackResults [(entE, 0.9)] 5)) :=
  ⟨rfl, fun h => by rw [show localizeRankStep true true
      (Except.error "ReadTimeoutError") (fun _ => none) [(entE, 0.9)] 5 =
      Except.error "ReadTimeoutError" from rfl] at h; cases h⟩

/-- Claim C4 (amended): the orchestrator falls back to the raw-score
truncation only when the re-ranker's RESPONSE fails to parse
(`json.JSONDecodeError`/`KeyError`): a successful invocation with an
unparseable body yields the merged candidates truncated to `top_k` with
confidence 0; an exception raised by the model invocation itself is not
caught and propagates out of `localize`. -/
theorem C4_fallback_only_on_parse_failure {ε : Type}
    (tryParseRankings : String → Option (List LLMRanker.RankItem))
    (content : String) (e : ε) (candidates : List (CodeEntity × ℚ))
    (top_k : Nat) (hparse : tryParseRankings content = none) :
    localizeRankStep true true (Except.ok content : Except ε String)
        tryParseRankings candidates top_k =
      Except.ok (Sum.inl ((candidates.take top_k).map fun es =>
        { entity := es.1, retrieval_score := es.2, confidence := 0,
          reason := "" })) ∧
    localizeRankStep true true (Except.error e) tryParseRankings
        candidates top_k = Except.error e := by
  constructor
  · simp [localizeRankStep, LLMRanker.rank_and_explain,
      LLMRanker._parse_response, hparse, LLMRanker.fallbackResults,
      Except.map]
  · rfl

/-- Witness for C4: the amended behavior at a concrete unparseable
response and a concrete invocation error. -/
theorem C4_fallback_only_on_parse_failure_witness :
    localizeRankStep true true
        (Except.ok "no json here" : Except String String)
        (fun _ => none) [(entE, 0.9)] 1 =
      Except.ok (Sum.inl [(⟨entE, 0.9, 0, ""⟩ : LLMRanker.RankResult)]) ∧
    localizeRankStep true true (Except.error "ReadTimeoutError")
        (fun _ => none) [(entE, 0.9)] 1 =
      Except.error "ReadTimeoutError" :=
  C4_fallback_only_on_parse_failure (fun _ => none) "no json here"
    "ReadTimeoutError" [(entE, 0.9)] 1 rfl

end Codewise
